import Mathlib

/-!
Shallow embedding of the newline-delimited TCP echo server in src/tcp.ts.

Bytes are modelled as natural numbers, a Buffer as a `List Nat` whose list
length is the capacity of the allocation, and the logical length of a DynBuf
as an integer, because bufPop in the source subtracts from it without any
bounds check.  The promise-based socket adapters are modelled as pure
transition functions on a connection state together with an immediate
outcome; the session loop is modelled as a fuel-indexed interpreter driven
by a script of read results.
-/

namespace TcpEcho

/-- Delimiter byte of the wire protocol: the newline 0x0A. -/
def NL : Nat := 10

/-- Resolution of a relative index against a length, as done by the
JavaScript methods subarray and copyWithin: a negative value counts from the
end (clamped below at 0), a nonnegative value is clamped above at the
length. -/
def jsIdx (i : Int) (len : Nat) : Nat :=
  if i < 0 then ((len : Int) + i).toNat else min i.toNat len

/-- Model of src.copy(target, tStart, 0): the bytes of src overwrite target
starting at offset tStart, truncated at the end of target, so the length of
target is preserved. -/
def bufCopy (src target : List Nat) (tStart : Nat) : List Nat :=
  target.take tStart ++ src.take (target.length - tStart) ++
    target.drop (tStart + src.length)

/-- Model of l.copyWithin(target, start, fin): the bytes in the range
[start, fin) of the list are copied onto offset target, indices resolved as
relative indices. -/
def copyWithin (l : List Nat) (target start fin : Int) : List Nat :=
  bufCopy ((l.drop (jsIdx start l.length)).take (jsIdx fin l.length - jsIdx start l.length))
    l (jsIdx target l.length)

/-- DynBuf of src/tcp.ts lines 24-27: the storage (a Buffer, whose list
length is the capacity) and the logical length.  The length is an integer
because bufPop decrements it with no bounds check. -/
structure DynBuf where
  data : List Nat
  length : Int
deriving DecidableEq

/-- Well-formedness of a DynBuf: the logical length lies between 0 and the
capacity.  Every buffer reachable through bufPush and through the bufPop
calls made by cutMessage is well formed. -/
def WF (buf : DynBuf) : Prop :=
  0 ≤ buf.length ∧ buf.length ≤ (buf.data.length : Int)

/-- Logical content of a DynBuf: buf.data.subarray(0, buf.length), the
region scanned by cutMessage at src/tcp.ts line 113. -/
def content (buf : DynBuf) : List Nat :=
  buf.data.take (jsIdx buf.length buf.data.length)

/-- Iteration of the capacity growth loop of bufPush, src/tcp.ts lines
32-36: double cap while it is below newLen.  The fuel argument only bounds
the number of iterations so the definition is structural; growCap below
supplies fuel newLen, which is enough for any cap ≥ 1 because every
iteration raises cap by at least one. -/
def growLoop : Nat → Nat → Nat → Nat
  | 0, cap, _ => cap
  | fuel + 1, cap, newLen =>
      if cap < newLen then growLoop fuel (cap * 2) newLen else cap

/-- Capacity growth of bufPush: the doubling loop run to completion.  The
source loop diverges when cap = 0 < newLen; that case is unreachable
because the caller starts from max(capacity, 32). -/
def growCap (cap newLen : Nat) : Nat := growLoop newLen cap newLen

/-- bufPush of src/tcp.ts lines 29-43: when the capacity is below the new
length, allocate a zero-filled buffer of size growCap(max(capacity, 32),
newLen) and copy the old storage to its offset 0; then copy the chunk at
offset buf.length and record the new length. -/
def bufPush (buf : DynBuf) (chunk : List Nat) : DynBuf :=
  let newLen : Int := buf.length + chunk.length
  let storage : List Nat :=
    if (buf.data.length : Int) < newLen then
      bufCopy buf.data (List.replicate (growCap (max buf.data.length 32) newLen.toNat) 0) 0
    else buf.data
  { data := bufCopy chunk storage buf.length.toNat, length := newLen }

/-- bufPop of src/tcp.ts lines 122-125: buf.data.copyWithin(0, len,
buf.length) followed by buf.length -= len.  The source performs no
precondition check of any kind. -/
def bufPop (buf : DynBuf) (len : Int) : DynBuf :=
  { data := copyWithin buf.data 0 len buf.length, length := buf.length - len }

/-- Model of Buffer.indexOf(target) over a byte list: the index of the first
occurrence, if any. -/
def byteIndexOf : List Nat → Nat → Option Nat
  | [], _ => none
  | b :: rest, t => if b = t then some 0 else (byteIndexOf rest t).map (· + 1)

/-- cutMessage of src/tcp.ts lines 112-120: look for the first newline in
buf.data.subarray(0, buf.length); when absent return null leaving the
buffer alone, otherwise return a copy of the bytes up to and including the
newline and pop them from the front. -/
def cutMessage (buf : DynBuf) : Option (List Nat) × DynBuf :=
  match byteIndexOf (content buf) NL with
  | none => (none, buf)
  | some idx => (some (buf.data.take (idx + 1)), bufPop buf ((idx : Int) + 1))

/-- Errors are identified only by a tag in this model. -/
abbrev Err := Nat

/-- TCPConn of src/tcp.ts lines 4-12 as pure state: the sticky error slot,
the sticky end-of-stream flag, whether a read waiter is registered, and
whether the socket is paused.  The continuation values of the waiter live
outside the state; the outcome types below describe how they are used. -/
structure TCPConn where
  err : Option Err
  ended : Bool
  reader : Bool
  paused : Bool
deriving DecidableEq

/-- soInit of src/tcp.ts lines 47-75: a freshly accepted connection has a
clear error slot, a clear end flag and no pending reader; the server is
created with pauseOnConnect so the socket starts paused. -/
def soInit : TCPConn :=
  { err := none, ended := false, reader := false, paused := true }

/-- Immediate outcome of soRead: rejected with the stored error, resolved at
once with a zero-length buffer, or suspended as the pending reader. -/
inductive ReadOutcome where
  | rejected (e : Err)
  | resolvedEmpty
  | pendingWait
deriving DecidableEq

/-- soRead of src/tcp.ts lines 77-91: reject when the error slot is set,
else resolve immediately with a zero-length buffer when the stream has
ended, else register the reader and resume the socket. -/
def soRead (conn : TCPConn) : ReadOutcome × TCPConn :=
  match conn.err with
  | some e => (.rejected e, conn)
  | none =>
      if conn.ended then (.resolvedEmpty, conn)
      else (.pendingWait, { conn with reader := true, paused := false })

/-- Immediate outcome of soWrite: rejected with the stored error, or handed
to the socket, whose callback later settles the promise. -/
inductive WriteOutcome where
  | rejected (e : Err)
  | issued
deriving DecidableEq

/-- soWrite of src/tcp.ts lines 93-108: reject when the error slot is set,
otherwise issue the write; completion is decided by the transport. -/
def soWrite (conn : TCPConn) (data : List Nat) : WriteOutcome × TCPConn :=
  match conn.err with
  | some e => (.rejected e, conn)
  | none => (.issued, conn)

/-- State effect of the data handler of src/tcp.ts lines 51-57: pause the
socket, resolve the waiter with the chunk, clear the waiter. -/
def onData (conn : TCPConn) : TCPConn :=
  { conn with paused := true, reader := false }

/-- State effect of the end handler of src/tcp.ts lines 59-65: set the end
flag and, when a reader is pending, resolve it with a zero-length buffer
and clear it. -/
def onEnd (conn : TCPConn) : TCPConn :=
  { conn with ended := true, reader := false }

/-- State effect of the error handler of src/tcp.ts lines 66-72: store the
error and, when a reader is pending, reject it and clear it. -/
def onError (conn : TCPConn) (e : Err) : TCPConn :=
  { conn with err := some e, reader := false }

/-- Byte literal of quit with trailing newline, src/tcp.ts line 142. -/
def quitBytes : List Nat := [113, 117, 105, 116, 10]

/-- Byte literal of the farewell reply Bye. with newline, line 143. -/
def byeBytes : List Nat := [66, 121, 101, 46, 10]

/-- Byte literal of the Echo reply prelude, src/tcp.ts line 147. -/
def echoBytes : List Nat := [69, 99, 104, 111, 58, 32]

/-- One resolved soRead in a session script: a delivered chunk, the empty
chunk signalling end of stream, or a rejection. -/
inductive ReadEv where
  | chunk (data : List Nat)
  | readErr (e : Err)
deriving DecidableEq

/-- How a run of the session loop ends. -/
inductive SessionEnd where
  | eof
  | quit
  | failed (e : Err)
  | starved
  | fuelOut
deriving DecidableEq

/-- serveClient of src/tcp.ts lines 127-151, driven by a script of read
results and a step budget.  Each iteration first tries cutMessage; with no
message available it consumes the next read result, pushes the chunk and
stops when the chunk has length zero; with a message it either answers
quit with the farewell and stops after destroying the socket, or emits the
Echo reply and loops without touching the script.  Writes are collected in
order; their completion is assumed confirmed by the transport. -/
def serveClientRun : Nat → DynBuf → List ReadEv → List (List Nat) × SessionEnd
  | 0, _, _ => ([], .fuelOut)
  | fuel + 1, buf, script =>
      match cutMessage buf with
      | (none, _) =>
          match script with
          | [] => ([], .starved)
          | .readErr e :: _ => ([], .failed e)
          | .chunk d :: rest =>
              let buf2 := bufPush buf d
              if d.length = 0 then ([], .eof)
              else serveClientRun fuel buf2 rest
      | (some m, buf2) =>
          if m = quitBytes then ([byeBytes], .quit)
          else
            let r := serveClientRun fuel buf2 script
            ((echoBytes ++ m) :: r.1, r.2)

/-- One framer interaction: an append of a chunk, or one cutMessage
attempt. -/
inductive Act where
  | push (c : List Nat)
  | cut
deriving DecidableEq

/-- Bytes appended over a list of framer interactions. -/
def pushedBytes : List Act → List Nat
  | [] => []
  | .push c :: r => c ++ pushedBytes r
  | .cut :: r => pushedBytes r

/-- Run a list of framer interactions from a buffer with the messages
extracted so far, keeping every extracted message in order. -/
def runActs : DynBuf × List (List Nat) → List Act → DynBuf × List (List Nat)
  | st, [] => st
  | st, .push c :: r => runActs (bufPush st.1 c, st.2) r
  | st, .cut :: r =>
      match cutMessage st.1 with
      | (none, _) => runActs st r
      | (some m, b) => runActs (b, st.2 ++ [m]) r

/-- The empty buffer a session starts with, src/tcp.ts line 128. -/
def buf0 : DynBuf := ⟨[], 0⟩

/-- All chunks of a script appended in order to the initial buffer. -/
def pushAll (chunks : List (List Nat)) : DynBuf :=
  chunks.foldl bufPush buf0

/-! ### Helper lemmas about the index arithmetic and the copy primitives -/

lemma jsIdx_of_nonneg_le {i : Int} {len : Nat} (h0 : 0 ≤ i) (h : i ≤ (len : Int)) :
    jsIdx i len = i.toNat := by
  rw [jsIdx, if_neg (by omega)]
  omega

lemma jsIdx_le (i : Int) (len : Nat) : jsIdx i len ≤ len := by
  rw [jsIdx]; split <;> omega

lemma bufCopy_length (src target : List Nat) (tStart : Nat) :
    (bufCopy src target tStart).length = target.length := by
  simp [bufCopy]
  omega

lemma bufCopy_eq (src target : List Nat) (tStart : Nat)
    (h : tStart + src.length ≤ target.length) :
    bufCopy src target tStart =
      target.take tStart ++ src ++ target.drop (tStart + src.length) := by
  have hsrc : src.take (target.length - tStart) = src :=
    List.take_of_length_le (by omega)
  rw [bufCopy, hsrc]

lemma take_append_append (A B C : List Nat) :
    (A ++ B ++ C).take (A.length + B.length) = A ++ B := by
  rw [List.append_assoc, List.take_append_eq_append_take,
    List.take_of_length_le (by omega), List.take_append_eq_append_take]
  simp

/-! ### Helper lemmas about growLoop and growCap -/

lemma growLoop_props : ∀ (fuel cap newLen : Nat), newLen ≤ cap + fuel → 1 ≤ cap →
    cap ≤ growLoop fuel cap newLen ∧ newLen ≤ growLoop fuel cap newLen ∧
      ∀ m k, cap = m * 2 ^ k → ∃ j, growLoop fuel cap newLen = m * 2 ^ j := by
  intro fuel
  induction fuel with
  | zero =>
      intro cap newLen hb h1
      exact ⟨le_refl _, by simpa [growLoop] using hb, fun m k hk => ⟨k, by simpa [growLoop] using hk⟩⟩
  | succ f ih =>
      intro cap newLen hb h1
      rw [growLoop]
      by_cases hc : cap < newLen
      · rw [if_pos hc]
        obtain ⟨ha, hn, hp⟩ := ih (cap * 2) newLen (by omega) (by omega)
        refine ⟨by omega, hn, fun m k hk => ?_⟩
        exact hp m (k + 1) (by rw [pow_succ, ← mul_assoc, ← hk])
      · rw [if_neg hc]
        exact ⟨le_refl _, by omega, fun m k hk => ⟨k, hk⟩⟩

lemma growCap_ge (cap newLen : Nat) (h1 : 1 ≤ cap) :
    cap ≤ growCap cap newLen ∧ newLen ≤ growCap cap newLen :=
  ⟨(growLoop_props newLen cap newLen (by omega) h1).1,
   (growLoop_props newLen cap newLen (by omega) h1).2.1⟩

lemma growCap_pow (cap newLen m k : Nat) (h1 : 1 ≤ cap) (hk : cap = m * 2 ^ k) :
    ∃ j, growCap cap newLen = m * 2 ^ j :=
  (growLoop_props newLen cap newLen (by omega) h1).2.2 m k hk

/-! ### Content of a well-formed buffer and the effect of bufPush -/

lemma content_of_wf {buf : DynBuf} (h : WF buf) :
    content buf = buf.data.take buf.length.toNat := by
  rw [content, jsIdx_of_nonneg_le h.1 h.2]

lemma content_length_le (buf : DynBuf) : (content buf).length ≤ buf.data.length := by
  rw [content]
  simp [List.length_take]

/-- Core facts about one append: the logical content is extended by the
chunk, well-formedness is preserved, and the logical length grows by the
chunk length. -/
lemma bufPush_spec (buf : DynBuf) (chunk : List Nat) (h : WF buf) :
    WF (bufPush buf chunk) ∧ content (bufPush buf chunk) = content buf ++ chunk ∧
      (bufPush buf chunk).length = buf.length + chunk.length := by
  obtain ⟨h0, hle⟩ := h
  have hL : ((buf.length.toNat : Int)) = buf.length := Int.toNat_of_nonneg h0
  set L := buf.length.toNat with hLdef
  set newLen : Int := buf.length + chunk.length with hnl
  have hnl0 : 0 ≤ newLen := by omega
  have hnlnat : newLen.toNat = L + chunk.length := by omega
  -- the storage after the conditional growth step
  have key : ∀ storage : List Nat, L + chunk.length ≤ storage.length →
      storage.take L = buf.data.take L →
      WF ⟨bufCopy chunk storage L, newLen⟩ ∧
        content ⟨bufCopy chunk storage L, newLen⟩ = content buf ++ chunk := by
    intro storage hcap htake
    have hlen : (bufCopy chunk storage L).length = storage.length :=
      bufCopy_length ..
    have hwf : WF ⟨bufCopy chunk storage L, newLen⟩ := by
      constructor
      · exact hnl0
      · simp only [hlen]
        omega
    refine ⟨hwf, ?_⟩
    rw [content_of_wf hwf]
    show (bufCopy chunk storage L).take newLen.toNat = content buf ++ chunk
    rw [bufCopy_eq _ _ _ hcap, hnlnat]
    have hLlen : (storage.take L).length = L := by
      rw [List.length_take]; omega
    calc (storage.take L ++ chunk ++ storage.drop (L + chunk.length)).take (L + chunk.length)
        = (storage.take L ++ chunk ++ storage.drop (L + chunk.length)).take
            ((storage.take L).length + chunk.length) := by rw [hLlen]
      _ = storage.take L ++ chunk := take_append_append ..
      _ = content buf ++ chunk := by
            rw [htake, content_of_wf ⟨h0, hle⟩]
  rw [bufPush]
  by_cases hg : (buf.data.length : Int) < newLen
  · simp only [hnl.symm, if_pos hg]
    have h32 : 1 ≤ max buf.data.length 32 := by omega
    obtain ⟨hc1, hc2⟩ := growCap_ge (max buf.data.length 32) newLen.toNat h32
    set cap := growCap (max buf.data.length 32) newLen.toNat with hcap
    have hrep : (List.replicate cap 0).length = cap := List.length_replicate ..
    have hgrown : (bufCopy buf.data (List.replicate cap 0) 0).length = cap := by
      rw [bufCopy_length, hrep]
    have hgrownEq : bufCopy buf.data (List.replicate cap 0) 0 =
        buf.data ++ List.replicate (cap - buf.data.length) 0 := by
      rw [bufCopy_eq _ _ _ (by omega), List.drop_replicate]
      simp
    have htake : (bufCopy buf.data (List.replicate cap 0) 0).take L = buf.data.take L := by
      rw [hgrownEq, List.take_append_of_le_length (by omega)]
    obtain ⟨hwf, hcont⟩ := key (bufCopy buf.data (List.replicate cap 0) 0) (by omega) htake
    exact ⟨hwf, hcont, trivial⟩
  · simp only [hnl.symm, if_neg hg]
    obtain ⟨hwf, hcont⟩ := key buf.data (by omega) rfl
    exact ⟨hwf, hcont, trivial⟩
/-! ### Effect of bufPop on a well-formed buffer -/

/-- Core facts about one in-range pop: the first n bytes leave the logical
content, the remainder is shifted to offset 0, the logical length drops by
n, and the storage is not reallocated. -/
lemma bufPop_spec (buf : DynBuf) (n : Int) (hwf : WF buf) (h0 : 0 ≤ n)
    (hn : n ≤ buf.length) :
    WF (bufPop buf n) ∧ content (bufPop buf n) = (content buf).drop n.toNat ∧
      (bufPop buf n).length = buf.length - n ∧
      (bufPop buf n).data.length = buf.data.length := by
  obtain ⟨hb0, hble⟩ := hwf
  have hs : jsIdx n buf.data.length = n.toNat := jsIdx_of_nonneg_le h0 (by omega)
  have he : jsIdx buf.length buf.data.length = buf.length.toNat :=
    jsIdx_of_nonneg_le hb0 hble
  have h00 : jsIdx 0 buf.data.length = 0 := by simp [jsIdx]
  set s := n.toNat with hsd
  set e := buf.length.toNat with hed
  have hse : s ≤ e := by omega
  have hedl : e ≤ buf.data.length := by omega
  have hslice : ((buf.data.drop s).take (e - s)).length = e - s := by
    rw [List.length_take, List.length_drop]; omega
  have hdata : (bufPop buf n).data =
      (buf.data.drop s).take (e - s) ++ buf.data.drop (e - s) := by
    show copyWithin buf.data 0 n buf.length = _
    rw [copyWithin, hs, he, h00, bufCopy_eq _ _ _ (by omega)]
    rw [hslice]
    simp
  have hdlen : (bufPop buf n).data.length = buf.data.length := by
    rw [hdata]
    simp only [List.length_append, hslice, List.length_drop]
    omega
  have hlen : (bufPop buf n).length = buf.length - n := rfl
  have hwf2 : WF (bufPop buf n) := by
    constructor
    · rw [hlen]; omega
    · rw [hlen, hdlen]; omega
  refine ⟨hwf2, ?_, hlen, hdlen⟩
  rw [content_of_wf hwf2, content_of_wf ⟨hb0, hble⟩, hdata, hlen]
  have hsub : (buf.length - n).toNat = e - s := by omega
  rw [hsub]
  have h1 : ((buf.data.drop s).take (e - s) ++ buf.data.drop (e - s)).take (e - s) =
      (buf.data.drop s).take (e - s) := by
    rw [List.take_append_of_le_length (by omega)]
    exact List.take_of_length_le (by omega)
  rw [h1, List.drop_take]

/-- Popping zero bytes is the identity on the buffer, for any buffer. -/
lemma bufPop_zero_eq (buf : DynBuf) : bufPop buf 0 = buf := by
  have h00 : jsIdx 0 buf.data.length = 0 := by simp [jsIdx]
  have he := jsIdx_le buf.length buf.data.length
  have htl : (buf.data.take (jsIdx buf.length buf.data.length)).length =
      jsIdx buf.length buf.data.length := by
    rw [List.length_take]; omega
  have hdata : copyWithin buf.data 0 0 buf.length = buf.data := by
    rw [copyWithin, h00]
    simp only [List.drop_zero, Nat.sub_zero]
    rw [bufCopy_eq _ _ _ (by rw [htl]; omega)]
    rw [htl]
    simp
  cases buf with
  | mk d l =>
      simp only [bufPop]
      rw [DynBuf.mk.injEq]
      exact ⟨hdata, by omega⟩

/-! ### Facts about byteIndexOf and cutMessage -/

lemma byteIndexOf_none_iff : ∀ (l : List Nat) (t : Nat),
    byteIndexOf l t = none ↔ ∀ b ∈ l, b ≠ t := by
  intro l t
  induction l with
  | nil => simp [byteIndexOf]
  | cons b rest ih =>
      rw [byteIndexOf]
      by_cases hb : b = t
      · simp [hb]
      · simp only [if_neg hb, Option.map_eq_none', ih, List.mem_cons]
        constructor
        · rintro hr x (rfl | hx)
          · exact hb
          · exact hr x hx
        · intro hr x hx
          exact hr x (Or.inr hx)

lemma byteIndexOf_some : ∀ (l : List Nat) (t idx : Nat),
    byteIndexOf l t = some idx → idx < l.length ∧ l[idx]? = some t := by
  intro l
  induction l with
  | nil => intro t idx h; simp [byteIndexOf] at h
  | cons b rest ih =>
      intro t idx h
      rw [byteIndexOf] at h
      by_cases hb : b = t
      · rw [if_pos hb] at h
        obtain rfl : (0 : Nat) = idx := Option.some.inj h
        simp [hb]
      · rw [if_neg hb] at h
        cases hr : byteIndexOf rest t with
        | none => rw [hr] at h; simp at h
        | some j =>
            rw [hr] at h
            simp only [Option.map_some'] at h
            obtain rfl : j + 1 = idx := Option.some.inj h
            obtain ⟨h1, h2⟩ := ih t j hr
            constructor
            · simpa using h1
            · simpa using h2

/-- A buffer whose logical content has no newline is refused untouched. -/
lemma cutMessage_none_of_no_delim {buf : DynBuf} (h : ∀ b ∈ content buf, b ≠ NL) :
    cutMessage buf = (none, buf) := by
  rw [cutMessage, (byteIndexOf_none_iff _ _).2 h]

/-- When the first component of cutMessage is null the whole result is the
untouched buffer. -/
lemma cutMessage_fst_none {buf : DynBuf} (h : (cutMessage buf).1 = none) :
    cutMessage buf = (none, buf) := by
  rw [cutMessage] at h ⊢
  cases hidx : byteIndexOf (content buf) NL with
  | none => rfl
  | some idx => rw [hidx] at h; simp at h

/-- Core facts about one successful extraction: the message is the content
up to and including the first newline, it is removed from the front of the
buffer, and well-formedness is preserved. -/
lemma cutMessage_some_spec {buf : DynBuf} {m : List Nat} {b : DynBuf}
    (hwf : WF buf) (h : cutMessage buf = (some m, b)) :
    content buf = m ++ content b ∧ WF b ∧ m ≠ [] ∧ m.getLast? = some NL ∧
      b.length = buf.length - m.length ∧ b.data.length = buf.data.length := by
  rw [cutMessage] at h
  cases hidx : byteIndexOf (content buf) NL with
  | none => rw [hidx] at h; simp at h
  | some idx =>
      rw [hidx, Prod.mk.injEq] at h
      obtain ⟨hm, hb⟩ := h
      replace hm : buf.data.take (idx + 1) = m := Option.some.inj hm
      obtain ⟨hlt, hget⟩ := byteIndexOf_some _ _ _ hidx
      have hclen : (content buf).length = buf.length.toNat := by
        rw [content_of_wf hwf, List.length_take]
        have := hwf.2
        omega
      have hidxlt : idx + 1 ≤ buf.length.toNat := by omega
      have hmc : (content buf).take (idx + 1) = m := by
        rw [← hm, content_of_wf hwf, List.take_take]
        congr 1
        omega
      have hmlen : m.length = idx + 1 := by
        rw [← hmc, List.length_take]
        omega
      have hnn : m ≠ [] := by
        intro hnil
        rw [hnil] at hmlen
        simp at hmlen
      have hlast : m.getLast? = some NL := by
        rw [← hmc, List.take_succ, hget]
        simp
      have hn1 : (0 : Int) ≤ (idx : Int) + 1 := by omega
      have hn2 : ((idx : Int) + 1) ≤ buf.length := by omega
      obtain ⟨hwfb, hcont, hlen, hdlen⟩ := bufPop_spec buf ((idx : Int) + 1) hwf hn1 hn2
      rw [hb] at hwfb hcont hlen hdlen
      have htn : ((idx : Int) + 1).toNat = idx + 1 := by omega
      rw [htn] at hcont
      refine ⟨?_, hwfb, hnn, hlast, ?_, hdlen⟩
      · rw [hcont, ← hmc, List.take_append_drop]
      · rw [hlen, hmlen]
        push_cast
        ring

/-! ### The framer invariant over arbitrary interleavings of push and cut -/

/-- Invariant of the framer: over any interleaving of appends and extraction
attempts, the extracted messages concatenated with the residual content equal
the bytes pushed so far, and every message is nonempty and newline
terminated. -/
lemma runActs_invariant : ∀ (acts : List Act) (st : DynBuf × List (List Nat))
    (input : List Nat), WF st.1 → st.2.flatten ++ content st.1 = input →
    (∀ m ∈ st.2, m ≠ [] ∧ m.getLast? = some NL) →
    WF (runActs st acts).1 ∧
      (runActs st acts).2.flatten ++ content (runActs st acts).1 =
        input ++ pushedBytes acts ∧
      ∀ m ∈ (runActs st acts).2, m ≠ [] ∧ m.getLast? = some NL := by
  intro acts
  induction acts with
  | nil =>
      intro st input h1 h2 h3
      simp only [runActs, pushedBytes, List.append_nil]
      exact ⟨h1, h2, h3⟩
  | cons a r ih =>
      intro st input h1 h2 h3
      cases a with
      | push c =>
          obtain ⟨hw, hc, _⟩ := bufPush_spec st.1 c h1
          have step := ih (bufPush st.1 c, st.2) (input ++ c) hw
            (by rw [hc, ← List.append_assoc, h2]) h3
          simp only [runActs, pushedBytes]
          exact ⟨step.1, by rw [← List.append_assoc]; exact step.2.1, step.2.2⟩
      | cut =>
          rcases hcut : cutMessage st.1 with ⟨o, b⟩
          cases o with
          | none =>
              have hb : cutMessage st.1 = (none, st.1) :=
                cutMessage_fst_none (by rw [hcut])
              have step := ih st input h1 h2 h3
              simp only [runActs, hb, pushedBytes]
              exact step
          | some m =>
              obtain ⟨hsplit, hwb, hnn, hlast, _, _⟩ := cutMessage_some_spec h1 hcut
              have hmsg : ∀ x ∈ st.2 ++ [m], x ≠ [] ∧ x.getLast? = some NL := by
                intro x hx
                rcases List.mem_append.1 hx with hx | hx
                · exact h3 x hx
                · rw [List.mem_singleton.1 hx]
                  exact ⟨hnn, hlast⟩
              have step := ih (b, st.2 ++ [m]) input hwb
                (by
                  show (st.2 ++ [m]).flatten ++ content b = input
                  rw [List.flatten_append, List.append_assoc]
                  simp only [List.flatten_cons, List.flatten_nil, List.append_nil]
                  rw [← hsplit, h2]) hmsg
              simp only [runActs, hcut, pushedBytes]
              exact step

/-- The concatenation of newline-terminated messages ends in a newline. -/
lemma join_getLast {msgs : List (List Nat)} (hne : msgs ≠ [])
    (h : ∀ m ∈ msgs, m ≠ [] ∧ m.getLast? = some NL) :
    msgs.flatten.getLast? = some NL := by
  induction msgs using List.reverseRecOn with
  | nil => exact absurd rfl hne
  | append_singleton init last _ih =>
      have hl := h last (by simp)
      rw [List.flatten_append]
      simp only [List.flatten_cons, List.flatten_nil, List.append_nil]
      rw [List.getLast?_append_of_ne_nil _ hl.1, hl.2]

/-! ### Per-claim theorems -/

/-- C1: Framing correctness.  Over every interleaving of appends (bufPush)
and extraction attempts (cutMessage) starting from the empty session
buffer, the concatenation of the extracted messages, followed by the
residual buffer content, is exactly the bytes appended, so the messages
concatenate to the input up to and including the last delimiter consumed;
each message is nonempty and newline-terminated, so it can only appear
once its delimiter was appended, and the byte-accounting equation makes
returning a message twice impossible.  Quantifying over all act lists also
covers every intermediate point of a run. -/
theorem cutMessage_framing (acts : List Act) :
    (runActs (buf0, []) acts).2.flatten ++ content (runActs (buf0, []) acts).1 =
        pushedBytes acts ∧
    (∀ m ∈ (runActs (buf0, []) acts).2, m ≠ [] ∧ m.getLast? = some NL) ∧
    ((runActs (buf0, []) acts).2 ≠ [] →
      ((runActs (buf0, []) acts).2.flatten).getLast? = some NL) := by
  have h := runActs_invariant acts (buf0, []) []
    ⟨le_refl 0, by simp [buf0]⟩ (by simp [content, buf0, jsIdx]) (by simp)
  exact ⟨by simpa using h.2.1, h.2.2, fun hne => join_getLast hne h.2.2⟩

/-- C7: Framer refusal leaves the buffer intact: with no delimiter in the
logical content, cutMessage returns null together with the unchanged
buffer. -/
theorem cutMessage_refusal (buf : DynBuf) (h : ∀ b ∈ content buf, b ≠ NL) :
    cutMessage buf = (none, buf) :=
  cutMessage_none_of_no_delim h

theorem cutMessage_refusal_check :
    cutMessage ⟨[97, 98, 99], 3⟩ = (none, ⟨[97, 98, 99], 3⟩) :=
  cutMessage_refusal ⟨[97, 98, 99], 3⟩ (by decide)

/-- C10: every message returned by cutMessage is nonempty and ends with the
delimiter 0x0A, and therefore so does every Echo reply built from it. -/
theorem cutMessage_delimited (buf : DynBuf) (m : List Nat) (b : DynBuf)
    (hwf : WF buf) (h : cutMessage buf = (some m, b)) :
    m ≠ [] ∧ m.getLast? = some NL ∧ (echoBytes ++ m).getLast? = some NL := by
  obtain ⟨_, _, hnn, hlast, _, _⟩ := cutMessage_some_spec hwf h
  exact ⟨hnn, hlast, by rw [List.getLast?_append_of_ne_nil _ hnn, hlast]⟩

theorem cutMessage_delimited_check :
    ([104, 10] : List Nat) ≠ [] ∧ ([104, 10] : List Nat).getLast? = some NL ∧
      (echoBytes ++ [104, 10]).getLast? = some NL :=
  cutMessage_delimited ⟨[104, 10], 2⟩ [104, 10] ⟨[104, 10], 0⟩
    ⟨by decide, by decide⟩ (by decide)

/-- C9: appending an empty byte sequence is an identity: on a well-formed
buffer, bufPush with a zero-length chunk returns the very same buffer, so
neither length nor content nor storage change and no reallocation happens.
The session loop relies on this when it appends the zero-length
end-of-stream read result before checking it. -/
theorem bufPush_nil (buf : DynBuf) (hwf : WF buf) : bufPush buf [] = buf := by
  obtain ⟨h0, hle⟩ := hwf
  cases buf with
  | mk d l =>
      simp only at h0 hle
      rw [bufPush]
      simp only [List.length_nil, Nat.cast_zero, add_zero]
      rw [if_neg (by omega), DynBuf.mk.injEq]
      refine ⟨?_, rfl⟩
      rw [bufCopy]
      simp [List.take_append_drop]

theorem bufPush_nil_check : bufPush ⟨[97], 1⟩ [] = ⟨[97], 1⟩ :=
  bufPush_nil ⟨[97], 1⟩ ⟨by decide, by decide⟩

/-- One append preserves the shape of the capacity: zero before any growth
has ever happened, a power-of-two multiple of 32 afterwards. -/
lemma bufPush_cap_shape (buf : DynBuf) (chunk : List Nat)
    (hcap : buf.data.length = 0 ∨ ∃ k, buf.data.length = 32 * 2 ^ k) :
    (bufPush buf chunk).data.length = 0 ∨
      ∃ k, (bufPush buf chunk).data.length = 32 * 2 ^ k := by
  rw [bufPush]
  by_cases hg : (buf.data.length : Int) < buf.length + chunk.length
  · simp only [if_pos hg, bufCopy_length, List.length_replicate]
    right
    have h1 : 1 ≤ max buf.data.length 32 := by omega
    have hshape : ∃ k, max buf.data.length 32 = 32 * 2 ^ k := by
      rcases hcap with h | ⟨k, hk⟩
      · refine ⟨0, ?_⟩
        have hp : (2 : Nat) ^ 0 = 1 := rfl
        omega
      · refine ⟨k, ?_⟩
        have hp : 1 ≤ 2 ^ k := Nat.one_le_two_pow
        omega
    obtain ⟨k, hk⟩ := hshape
    exact growCap_pow _ _ 32 k h1 hk
  · simp only [if_neg hg, bufCopy_length]
    exact hcap

/-- The fold of appends from any well-formed start preserves well-formedness
and the capacity shape, and adds up the chunk lengths. -/
lemma pushAll_invariant : ∀ (chunks : List (List Nat)) (buf : DynBuf), WF buf →
    (buf.data.length = 0 ∨ ∃ k, buf.data.length = 32 * 2 ^ k) →
    WF (chunks.foldl bufPush buf) ∧
      (chunks.foldl bufPush buf).length =
        buf.length + ((chunks.map List.length).sum : Int) ∧
      ((chunks.foldl bufPush buf).data.length = 0 ∨
        ∃ k, (chunks.foldl bufPush buf).data.length = 32 * 2 ^ k) := by
  intro chunks
  induction chunks with
  | nil =>
      intro buf h1 h2
      exact ⟨h1, by simp, h2⟩
  | cons c r ih =>
      intro buf h1 h2
      obtain ⟨hw, _, hlen⟩ := bufPush_spec buf c h1
      obtain ⟨hw2, hlen2, hcap2⟩ := ih (bufPush buf c) hw (bufPush_cap_shape buf c h2)
      refine ⟨hw2, ?_, hcap2⟩
      rw [List.foldl_cons, hlen2, hlen]
      simp only [List.map_cons, List.sum_cons, Nat.cast_add]
      ring

/-- C5 (amended): buffer growth invariant.  After any sequence of appends
starting from the empty session buffer, the logical length is the sum of
the chunk lengths and the capacity is at least the logical length; the
capacity is either still 0, while only empty chunks have been appended, or
a power-of-two multiple of the minimum capacity 32.  Quantifying over all
chunk lists covers the state after each call of a longer sequence.  The
original claim, that the capacity is always a power-of-two multiple of the
minimum capacity, fails in the capacity-0 states, see the counterexample. -/
theorem capacity_policy (chunks : List (List Nat)) :
    (pushAll chunks).length = ((chunks.map List.length).sum : Int) ∧
    (pushAll chunks).length ≤ ((pushAll chunks).data.length : Int) ∧
    ((pushAll chunks).data.length = 0 ∨
      ∃ k, (pushAll chunks).data.length = 32 * 2 ^ k) := by
  obtain ⟨hw, hlen, hcap⟩ := pushAll_invariant chunks buf0
    ⟨le_refl 0, by simp [buf0]⟩ (Or.inl rfl)
  exact ⟨by simpa [pushAll, buf0] using hlen, hw.2, hcap⟩

/-- C5 counterexample: after appending one empty chunk to the fresh buffer,
a real code path because the handler appends the zero-length end-of-stream
read result, the capacity is still 0, and 0 is not a power-of-two multiple
of any minimum capacity of at least 32. -/
theorem capacity_policy_counterexample :
    (pushAll [[]]).data.length = 0 ∧
      ¬ ∃ m k, 32 ≤ m ∧ (pushAll [[]]).data.length = m * 2 ^ k := by
  refine ⟨by decide, ?_⟩
  rintro ⟨m, k, h32, hk⟩
  rw [show (pushAll [[]]).data.length = 0 by decide] at hk
  have h2 : 0 < 2 ^ k := pow_pos (by norm_num) k
  have h3 := Nat.mul_eq_zero.mp hk.symm
  omega

/-- C6 (amended): consumeFront correctness.  For 0 ≤ n ≤ length on a
well-formed buffer, bufPop removes exactly the first n bytes of the logical
content, shifts the remainder to offset 0, decreases the logical length by
n and keeps the storage; the length never increases, and popping 0 is the
identity.  The final conjunct holds for every argument, in range or not:
the source has no precondition check of any kind, so an out-of-range pop is
neither a fatal assertion nor a recoverable failure, it silently leaves a
negative logical length, see the counterexample. -/
theorem bufPop_consumeFront (buf : DynBuf) (n : Int) (hwf : WF buf) (h0 : 0 ≤ n)
    (hn : n ≤ buf.length) :
    content (bufPop buf n) = (content buf).drop n.toNat ∧
    (bufPop buf n).length = buf.length - n ∧
    (bufPop buf n).data.length = buf.data.length ∧
    (bufPop buf n).length ≤ buf.length ∧
    (∀ k : Int, (bufPop buf k).length = buf.length - k) ∧
    bufPop buf 0 = buf := by
  obtain ⟨hwf2, hcont, hlen, hdlen⟩ := bufPop_spec buf n hwf h0 hn
  exact ⟨hcont, hlen, hdlen, by rw [hlen]; omega, fun k => rfl, bufPop_zero_eq buf⟩

theorem bufPop_consumeFront_check :
    content (bufPop ⟨[97, 98], 2⟩ 1) = [98] ∧
      (bufPop ⟨[97, 98], 2⟩ 1).length = 1 ∧
      (bufPop ⟨[97, 98], 2⟩ 1).data.length = 2 ∧
      (bufPop ⟨[97, 98], 2⟩ 1).length ≤ 2 ∧
      (∀ k : Int, (bufPop ⟨[97, 98], 2⟩ k).length = 2 - k) ∧
      bufPop ⟨[97, 98], 2⟩ 0 = ⟨[97, 98], 2⟩ :=
  bufPop_consumeFront ⟨[97, 98], 2⟩ 1 ⟨by decide, by decide⟩ (by decide) (by decide)

/-- C6 counterexample: the out-of-range call bufPop(⟨empty, 0⟩, 1), which
violates the stated precondition 0 ≤ n ≤ length, is not trapped by any
assertion: it returns normally with logical length -1. -/
theorem bufPop_unchecked_counterexample : bufPop ⟨[], 0⟩ 1 = ⟨[], -1⟩ := by
  decide

/-- C3: sticky error.  In any connection state whose error slot holds e,
soRead rejects with exactly e and leaves the state unchanged, soWrite
rejects with exactly e for every payload and leaves the state unchanged,
and neither the data handler, the end handler, nor soRead or soWrite clear
the slot, so every subsequent read and write fails with that same stored
error. -/
theorem conn_sticky_error (c : TCPConn) (e : Err) (h : c.err = some e) :
    soRead c = (.rejected e, c) ∧
    (∀ d, soWrite c d = (.rejected e, c)) ∧
    (onData c).err = some e ∧ (onEnd c).err = some e ∧
    ((soRead c).2).err = some e ∧ (∀ d, ((soWrite c d).2).err = some e) := by
  refine ⟨by simp [soRead, h], fun d => by simp [soWrite, h],
    by simp [onData, h], by simp [onEnd, h],
    by simp [soRead, h], fun d => by simp [soWrite, h]⟩

theorem conn_sticky_error_check :
    soRead (onError soInit 0) = (.rejected 0, onError soInit 0) ∧
      soWrite (onError soInit 0) [97] = (.rejected 0, onError soInit 0) := by
  have h := conn_sticky_error (onError soInit 0) 0 (by decide)
  exact ⟨h.1, h.2.1 [97]⟩

/-- C4 (amended): idempotent end-of-stream.  Once the end flag is set, every
read made while the error slot is still unset resolves immediately with a
zero-length sequence and changes nothing: it neither suspends nor errors.
The original claim, without the error-slot proviso, fails because soRead
checks the error slot before the end flag, see the counterexample. -/
theorem read_after_end_empty (c : TCPConn) (hend : c.ended = true)
    (herr : c.err = none) : soRead c = (.resolvedEmpty, c) := by
  simp [soRead, herr, hend]

theorem read_after_end_empty_check :
    soRead (onEnd soInit) = (.resolvedEmpty, onEnd soInit) :=
  read_after_end_empty (onEnd soInit) (by decide) (by decide)

/-- C4 counterexample: a connection that saw its end event and then an error
event has the end flag set, yet the next read does not yield a zero-length
sequence: it fails with the stored error. -/
theorem read_after_end_error_counterexample :
    (onError (onEnd soInit) 0).ended = true ∧
      soRead (onError (onEnd soInit) 0) =
        (.rejected 0, onError (onEnd soInit) 0) ∧
      (soRead (onError (onEnd soInit) 0)).1 ≠ ReadOutcome.resolvedEmpty := by
  exact ⟨by decide, by decide, by decide⟩

/-- C2: session handler protocol.  Whenever cutMessage extracts a message m
from the buffer, one loop iteration behaves as follows: if m is the literal
quit line, the handler writes exactly the farewell line, destroys the
connection and terminates; otherwise it writes exactly the Echo reply
formed from m, delimiter included, and loops on the popped buffer with the
same read script, so no new read is issued while further complete messages
remain buffered. -/
theorem serveClient_protocol (fuel : Nat) (buf b2 : DynBuf) (m : List Nat)
    (script : List ReadEv) (h : cutMessage buf = (some m, b2)) :
    (m = quitBytes → serveClientRun (fuel + 1) buf script = ([byeBytes], .quit)) ∧
    (m ≠ quitBytes → serveClientRun (fuel + 1) buf script =
      ((echoBytes ++ m) :: (serveClientRun fuel b2 script).1,
        (serveClientRun fuel b2 script).2)) := by
  constructor
  · intro hm
    simp [serveClientRun, h, hm]
  · intro hm
    simp [serveClientRun, h, hm]

theorem serveClient_protocol_check :
    serveClientRun 1 ⟨[113, 117, 105, 116, 10], 5⟩ [] = ([byeBytes], .quit) ∧
      serveClientRun 1 ⟨[97, 10], 2⟩ [] =
        ([echoBytes ++ [97, 10]], .fuelOut) := by
  constructor
  · exact (serveClient_protocol 0 ⟨[113, 117, 105, 116, 10], 5⟩
      ⟨[113, 117, 105, 116, 10], 0⟩ quitBytes [] (by decide)).1 rfl
  · have h := (serveClient_protocol 0 ⟨[97, 10], 2⟩ ⟨[97, 10], 0⟩ [97, 10] []
      (by decide)).2 (by decide)
    rw [h]
    decide

/-- C8: end-of-stream termination.  When no complete message is buffered,
so cutMessage refuses, and the next read yields a zero-length chunk, the
session loop terminates with no write and no error, whatever undelimited
partial data remains in the buffer. -/
theorem serveClient_eof (fuel : Nat) (buf : DynBuf) (rest : List ReadEv)
    (h : (cutMessage buf).1 = none) :
    serveClientRun (fuel + 1) buf (.chunk [] :: rest) = ([], .eof) := by
  have hc := cutMessage_fst_none h
  simp [serveClientRun, hc]

theorem serveClient_eof_check :
    serveClientRun 1 ⟨[97, 98, 99], 3⟩ [.chunk []] = ([], .eof) :=
  serveClient_eof 0 ⟨[97, 98, 99], 3⟩ [] (by decide)

end TcpEcho
